import Mathlib

deriving instance DecidableEq for Except

/-!
Verification of the download orchestration engine in `util/model.py`:
name/group expansion with cycle detection, the single-transfer pipeline
(`download_file`), and the `dl` command's scheduling decisions (`cmd_dl`).
Python strings are modelled as Lean strings, Python dicts as association
lists looked up by exact key equality, and the filesystem as an
association list from target paths to byte contents.  External library
behaviour (`urllib` URL parsing and redirect handling, `zipfile`, the
thread-pool executor) is modelled where a claim depends on it, with a doc
comment on each such definition saying what it models.
-/

namespace ComfySetup

/-! ## Character-list utilities (modelling Python `str` operations) -/

/-- Python `str.strip()`: remove leading and trailing whitespace. -/
def trimChars (l : List Char) : List Char :=
  ((l.dropWhile Char.isWhitespace).reverse.dropWhile Char.isWhitespace).reverse

/-- Python `str.lower()` (ASCII case folding). -/
def lowerChars (l : List Char) : List Char :=
  l.map Char.toLower

/-- Python `str.startswith(pat)`; the second argument is the pattern. -/
def startsWithL : List Char → List Char → Bool
  | _, [] => true
  | [], _ :: _ => false
  | c :: cs, p :: ps => c == p && startsWithL cs ps

/-- Python `str.split(";")`, accumulator-based. -/
def splitSemiAux : List Char → List Char → List (List Char)
  | [], acc => [acc.reverse]
  | c :: rest, acc =>
    if c == ';' then acc.reverse :: splitSemiAux rest []
    else splitSemiAux rest (c :: acc)

/-- Python `str.split(";")`. -/
def splitSemi (l : List Char) : List (List Char) := splitSemiAux l []

/-- Python `s.split("=", 1)[1]`: everything after the first equals sign. -/
def afterFirstEq (l : List Char) : List Char :=
  (l.dropWhile (fun c => !(c == '='))).drop 1

/-- Python `s.strip(q)` for the double-quote character: remove all leading
and trailing double quotes. -/
def stripQuotesChars (l : List Char) : List Char :=
  ((l.dropWhile (fun c => c == '"')).reverse.dropWhile (fun c => c == '"')).reverse

/-! ## URL parsing

Modelled from `urllib.parse.urlparse` for the common shape
`scheme://user@host:port/path?query#fragment`: `download_file` only uses
`parsed.hostname` (lower-cased, `none` when there is no network location)
and `parsed.path`. -/

/-- Drop a leading `scheme:` prefix, if a colon occurs before any slash. -/
def dropScheme (l : List Char) : List Char :=
  let pre := l.takeWhile (fun c => !(c == ':' || c == '/'))
  if (l.drop pre.length).head? == some ':' then l.drop (pre.length + 1) else l

/-- The network-location component: present only after a leading `//`,
running up to the next slash, question mark or hash. -/
def netlocOf (l : List Char) : List Char :=
  let r := dropScheme l
  if startsWithL r ('/' :: '/' :: []) then
    (r.drop 2).takeWhile (fun c => !(c == '/' || c == '?' || c == '#'))
  else []

/-- The path component: what follows the network location, up to a
question mark or hash. -/
def pathOf (l : List Char) : List Char :=
  let r := dropScheme l
  let r2 :=
    if startsWithL r ('/' :: '/' :: []) then
      (r.drop 2).dropWhile (fun c => !(c == '/' || c == '?' || c == '#'))
    else r
  r2.takeWhile (fun c => !(c == '?' || c == '#'))

/-- Modelled from `urlparse(url).hostname`: the part of the network
location after any user-info and before any port, lower-cased; `none`
when empty. -/
def hostnameChars (l : List Char) : Option (List Char) :=
  let netloc := netlocOf l
  let afterAt := (netloc.reverse.takeWhile (fun c => !(c == '@'))).reverse
  let host := lowerChars (afterAt.takeWhile (fun c => !(c == ':')))
  if host.isEmpty then none else some host

/-- Hostname of a URL, as `download_file` derives it. -/
def parseHostname (url : String) : Option String :=
  (hostnameChars url.data).map List.asString

/-- Python `os.path.basename`: everything after the last slash. -/
def basenameChars (l : List Char) : List Char :=
  (l.reverse.takeWhile (fun c => !(c == '/'))).reverse

/-! ## HTTP response and filename derivation -/

/-- The observable part of the HTTP response `download_file` consumes:
the `Content-Disposition` header (`none` when absent), the
`Content-Length` header (`none` when absent), and the body bytes. -/
structure Response where
  contentDisposition : Option String
  contentLength : Option Nat
  body : List Nat
deriving DecidableEq

/-- The loop over `cd.split(";")` in `get_filename_from_response`: strip
each part, and on the first part whose lower-casing starts with
`filename=`, return what follows the first equals sign with surrounding
double quotes stripped. -/
def cdFilenameLoop : List (List Char) → Option (List Char)
  | [] => none
  | part :: rest =>
    let p := trimChars part
    if startsWithL (lowerChars p) "filename=".data then
      some (stripQuotesChars (afterFirstEq p))
    else cdFilenameLoop rest

/-- The fallback of `get_filename_from_response`: the basename of the URL
path, or the fixed default when that is empty. -/
def urlFallbackName (url : String) : String :=
  let base := basenameChars (pathOf url.data)
  if base.isEmpty then "downloaded.file" else base.asString

/-- `get_filename_from_response(response, url)` from `util/model.py`:
prefer a `filename=` parameter of a non-empty `Content-Disposition`
header, otherwise fall back to the URL path. -/
def get_filename_from_response (resp : Response) (url : String) : String :=
  match resp.contentDisposition with
  | some cd =>
    if cd = "" then urlFallbackName url
    else
      match cdFilenameLoop (splitSemi cd.data) with
      | some f => f.asString
      | none => urlFallbackName url
  | none => urlFallbackName url

/-! ## Index and group expansion -/

/-- One entry of the persisted index's `models` table. -/
structure ModelEntry where
  url : String
  subdirectory : String
  unzip : Bool
deriving DecidableEq

/-- The persisted index: a `models` table and a `groups` table, modelled
as association lists with exact-key lookup (Python dicts). -/
structure Index where
  models : List (String × ModelEntry)
  groups : List (String × List String)
deriving DecidableEq

/-- Exact-match association-list lookup (Python `d[k]` / `k in d`). -/
def alookup {α : Type} : List (String × α) → String → Option α
  | [], _ => none
  | (k, v) :: rest, key => if k = key then some v else alookup rest key

/-- How `expand_names` can fail: `sys.exit` on a cyclic group reference
(carrying the name at which the cycle closed), or fuel exhaustion, which
stands for the unbounded recursion of the Python original. -/
inductive ExpandError where
  | cycle (name : String)
  | fuelExhausted
deriving DecidableEq

/-- The recursive `expand` closure of `expand_names`, with the mutable
`visiting` set and the accumulation list made explicit: processes a
worklist of names left to right, keeping the current recursion path in
`visiting`.  A name already on the path is a fatal cycle; a name bound in
the groups table is replaced by its member list (expanded with the name
pushed onto the path); any other name is emitted as a leaf. -/
def expandFuel (groups : List (String × List String)) :
    Nat → List String → List String → Except ExpandError (List String)
  | _, _, [] => Except.ok []
  | 0, _, _ :: _ => Except.error ExpandError.fuelExhausted
  | fuel + 1, visiting, name :: rest =>
    if name ∈ visiting then Except.error (ExpandError.cycle name)
    else
      match alookup groups name with
      | some members =>
        match expandFuel groups fuel (name :: visiting) members with
        | Except.error e => Except.error e
        | Except.ok l =>
          match expandFuel groups fuel visiting rest with
          | Except.error e => Except.error e
          | Except.ok r => Except.ok (l ++ r)
      | none =>
        match expandFuel groups fuel visiting rest with
        | Except.error e => Except.error e
        | Except.ok r => Except.ok (name :: r)

/-- The final deduplication loop of `expand_names` (and the inline
deduplication of `cmd_dl`): keep the first occurrence of each name, with
the `seen` set made explicit. -/
def dedupSeen : List String → List String → List String
  | _, [] => []
  | seen, n :: rest =>
    if n ∈ seen then dedupSeen seen rest else n :: dedupSeen (n :: seen) rest

/-- `expand_names(index, names)` from `util/model.py`: depth-first
left-to-right expansion of the requested names, then first-occurrence
deduplication.  (The informational group-trace print is not modelled.) -/
def expand_names (index : Index) (names : List String) (fuel : Nat) :
    Except ExpandError (List String) :=
  match expandFuel index.groups fuel [] names with
  | Except.error e => Except.error e
  | Except.ok expanded => Except.ok (dedupSeen [] expanded)

/-- Index of the first occurrence of a name in a list (length of the list
when absent). -/
def firstIdx : List String → String → Nat
  | [], _ => 0
  | a :: rest, x => if a = x then 0 else firstIdx rest x + 1

/-- The groups table of the expansion-order example in the specification. -/
def exIndex1 : Index :=
  ⟨[], [("g", ["a", "h"]), ("h", ["b", "a"])]⟩

/-- The groups table of the cycle example in the specification. -/
def cycIndex : Index :=
  ⟨[], [("x", ["y"]), ("y", ["x"])]⟩

/-! ## Properties of the deduplication pass -/

theorem mem_dedupSeen (l : List String) (seen : List String) (x : String) :
    x ∈ dedupSeen seen l ↔ x ∈ l ∧ x ∉ seen := by
  induction l generalizing seen with
  | nil => simp [dedupSeen]
  | cons n rest ih =>
    by_cases hn : n ∈ seen
    · rw [dedupSeen, if_pos hn, ih]
      constructor
      · rintro ⟨hx, hs⟩
        exact ⟨List.mem_cons_of_mem n hx, hs⟩
      · rintro ⟨hx, hs⟩
        refine ⟨?_, hs⟩
        rcases List.mem_cons.mp hx with rfl | hx
        · exact absurd hn hs
        · exact hx
    · rw [dedupSeen, if_neg hn]
      constructor
      · intro hmem
        rcases List.mem_cons.mp hmem with rfl | hmem
        · exact ⟨List.mem_cons_self x rest, hn⟩
        · obtain ⟨hx, hs⟩ := (ih (n :: seen)).mp hmem
          exact ⟨List.mem_cons_of_mem n hx, fun hx2 => hs (List.mem_cons_of_mem n hx2)⟩
      · rintro ⟨hx, hs⟩
        rcases List.mem_cons.mp hx with rfl | hx2
        · exact List.mem_cons_self x _
        · by_cases hxn : x = n
          · subst hxn
            exact List.mem_cons_self x _
          · refine List.mem_cons_of_mem n ((ih (n :: seen)).mpr ⟨hx2, ?_⟩)
            intro hmem2
            rcases List.mem_cons.mp hmem2 with h2 | h2
            · exact hxn h2
            · exact hs h2

theorem nodup_dedupSeen (l : List String) (seen : List String) :
    (dedupSeen seen l).Nodup := by
  induction l generalizing seen with
  | nil => simp [dedupSeen]
  | cons n rest ih =>
    by_cases hn : n ∈ seen
    · rw [dedupSeen, if_pos hn]
      exact ih seen
    · rw [dedupSeen, if_neg hn]
      refine List.nodup_cons.mpr ⟨fun hmem => ?_, ih (n :: seen)⟩
      exact ((mem_dedupSeen rest (n :: seen) n).mp hmem).2 (List.mem_cons_self n seen)

theorem firstIdx_cons_ne (a x : String) (l : List String) (h : a ≠ x) :
    firstIdx (a :: l) x = firstIdx l x + 1 := by
  rw [firstIdx, if_neg h]

theorem pairwise_firstIdx_dedupSeen (l : List String) (seen : List String) :
    (dedupSeen seen l).Pairwise (fun a b => firstIdx l a < firstIdx l b) := by
  induction l generalizing seen with
  | nil => simp [dedupSeen]
  | cons n rest ih =>
    by_cases hn : n ∈ seen
    · rw [dedupSeen, if_pos hn]
      refine (ih seen).imp_of_mem (fun {a} {b} ha hb hlt => ?_)
      have ha2 := ((mem_dedupSeen rest seen a).mp ha).2
      have hb2 := ((mem_dedupSeen rest seen b).mp hb).2
      have han : n ≠ a := fun h => ha2 (h ▸ hn)
      have hbn : n ≠ b := fun h => hb2 (h ▸ hn)
      rw [firstIdx_cons_ne n a rest han, firstIdx_cons_ne n b rest hbn]
      omega
    · rw [dedupSeen, if_neg hn]
      refine List.pairwise_cons.mpr ⟨fun b hb => ?_, ?_⟩
      · have hb2 := ((mem_dedupSeen rest (n :: seen) b).mp hb).2
        have hbn : n ≠ b := fun h => hb2 (List.mem_cons.mpr (Or.inl h.symm))
        have h0 : firstIdx (n :: rest) n = 0 := by rw [firstIdx, if_pos rfl]
        rw [h0, firstIdx_cons_ne n b rest hbn]
        omega
      · refine (ih (n :: seen)).imp_of_mem (fun {a} {b} ha hb hlt => ?_)
        have ha2 := ((mem_dedupSeen rest (n :: seen) a).mp ha).2
        have hb2 := ((mem_dedupSeen rest (n :: seen) b).mp hb).2
        have han : n ≠ a := fun h => ha2 (List.mem_cons.mpr (Or.inl h.symm))
        have hbn : n ≠ b := fun h => hb2 (List.mem_cons.mpr (Or.inl h.symm))
        rw [firstIdx_cons_ne n a rest han, firstIdx_cons_ne n b rest hbn]
        omega

/-! ## Claim C1 -/

/-- C1: whenever the depth-first left-to-right traversal of the requested
names' group expansions emits the raw leaf sequence `raw` and
`expand_names` succeeds with `result`, the result contains each leaf at
most once, contains exactly the leaves of the traversal, and is ordered
by first appearance in the traversal; and on the specification's example
(groups g maps to a, h and h maps to b, a) expanding the single name g
yields the list a, b. -/
theorem c1_expand_names_dedup_order (index : Index) (names : List String)
    (fuel : Nat) (raw result : List String)
    (hraw : expandFuel index.groups fuel [] names = Except.ok raw)
    (hres : expand_names index names fuel = Except.ok result) :
    result.Nodup ∧ (∀ x, x ∈ result ↔ x ∈ raw) ∧
      result.Pairwise (fun a b => firstIdx raw a < firstIdx raw b) ∧
      expand_names exIndex1 (["g"]) 5 = Except.ok (["a", "b"]) := by
  have hr : result = dedupSeen [] raw := by
    rw [expand_names, hraw] at hres
    exact (Except.ok.injEq _ _).mp hres.symm
  subst hr
  refine ⟨nodup_dedupSeen raw [], fun x => ?_, pairwise_firstIdx_dedupSeen raw [], by decide⟩
  rw [mem_dedupSeen]
  simp

theorem c1_expand_names_dedup_order_witness :
    (["a", "b"] : List String).Nodup ∧
      (∀ x, x ∈ (["a", "b"] : List String) ↔ x ∈ (["a", "b", "a"] : List String)) ∧
      (["a", "b"] : List String).Pairwise
        (fun a b => firstIdx (["a", "b", "a"]) a < firstIdx (["a", "b", "a"]) b) ∧
      expand_names exIndex1 (["g"]) 5 = Except.ok (["a", "b"]) :=
  c1_expand_names_dedup_order exIndex1 (["g"]) 5 (["a", "b", "a"]) (["a", "b"])
    (by decide) (by decide)

/-! ## Claim C2 -/

/-- A cycle error can only close at a name that was entered as a group:
whenever every name on the current path is a group name, a cycle error
reported by the expansion names a group name. -/
theorem cycle_name_is_group (groups : List (String × List String)) :
    ∀ (fuel : Nat) (visiting names : List String) (n : String),
      (∀ v ∈ visiting, (alookup groups v).isSome = true) →
      expandFuel groups fuel visiting names = Except.error (ExpandError.cycle n) →
      (alookup groups n).isSome = true := by
  intro fuel
  induction fuel with
  | zero =>
    intro visiting names n hvis herr
    cases names with
    | nil => exact Except.noConfusion herr
    | cons name rest =>
      rw [expandFuel] at herr
      exact ExpandError.noConfusion (Except.error.inj herr)
  | succ fuel ih =>
    intro visiting names n hvis herr
    cases names with
    | nil => exact Except.noConfusion herr
    | cons name rest =>
      rw [expandFuel] at herr
      by_cases hmem : name ∈ visiting
      · rw [if_pos hmem] at herr
        rcases ExpandError.cycle.inj (Except.error.inj herr) with rfl
        exact hvis name hmem
      · rw [if_neg hmem] at herr
        cases hg : alookup groups name with
        | some members =>
          simp only [hg] at herr
          cases h1 : expandFuel groups fuel (name :: visiting) members with
          | error e =>
            simp only [h1] at herr
            rcases Except.error.inj herr with rfl
            refine ih (name :: visiting) members n (fun v hv => ?_) h1
            rcases List.mem_cons.mp hv with rfl | hv2
            · rw [hg]; rfl
            · exact hvis v hv2
          | ok l =>
            simp only [h1] at herr
            cases h2 : expandFuel groups fuel visiting rest with
            | error e =>
              simp only [h2] at herr
              rcases Except.error.inj herr with rfl
              exact ih visiting rest n hvis h2
            | ok r =>
              simp only [h2] at herr
              exact Except.noConfusion herr
        | none =>
          simp only [hg] at herr
          cases h2 : expandFuel groups fuel visiting rest with
          | error e =>
            simp only [h2] at herr
            rcases Except.error.inj herr with rfl
            exact ih visiting rest n hvis h2
          | ok r =>
            simp only [h2] at herr
            exact Except.noConfusion herr

/-- C2: on the specification's cyclic example (groups x maps to y and y
maps to x), expanding the single name x fails, for every sufficient fuel,
with a cycle error identifying x as the name at which the cycle closed;
moreover, in general, the name a cycle error reports is one that was
being expanded as a group on the current path, and an expansion that
reports a cycle error returns no leaf list at all. -/
theorem c2_cycle_error (fuel : Nat) (h : 3 ≤ fuel) :
    expand_names cycIndex (["x"]) fuel = Except.error (ExpandError.cycle ("x")) ∧
      (∀ (index : Index) (names : List String) (fuel2 : Nat) (n : String),
        expand_names index names fuel2 = Except.error (ExpandError.cycle n) →
          (alookup index.groups n).isSome = true ∧
          ∀ l, expand_names index names fuel2 ≠ Except.ok l) := by
  constructor
  · obtain ⟨k, rfl⟩ : ∃ k, fuel = k + 3 := ⟨fuel - 3, by omega⟩
    simp +decide [expand_names, expandFuel, cycIndex, alookup]
  · intro index names fuel2 n herr
    have herr2 : expandFuel index.groups fuel2 [] names =
        Except.error (ExpandError.cycle n) := by
      rw [expand_names] at herr
      cases hf : expandFuel index.groups fuel2 [] names with
      | error e => rw [hf] at herr; exact Except.error.inj herr ▸ rfl
      | ok l => rw [hf] at herr; exact Except.noConfusion herr
    refine ⟨cycle_name_is_group index.groups fuel2 [] names n (by simp) herr2, ?_⟩
    intro l hok
    rw [herr] at hok
    exact Except.noConfusion hok

theorem c2_cycle_error_witness :
    3 ≤ 3 ∧
      (expand_names cycIndex (["x"]) 3 = Except.error (ExpandError.cycle ("x")) ∧
        (∀ (index : Index) (names : List String) (fuel2 : Nat) (n : String),
          expand_names index names fuel2 = Except.error (ExpandError.cycle n) →
            (alookup index.groups n).isSome = true ∧
            ∀ l, expand_names index names fuel2 ≠ Except.ok l)) :=
  ⟨by decide, c2_cycle_error 3 (by decide)⟩

/-! ## The single-transfer pipeline (`download_file`) -/

/-- A target path on disk: the destination directory paired with the file
name inside it (Python `subdirectory / filename`). -/
structure TargetPath where
  dir : String
  file : String
deriving DecidableEq

/-- The filesystem visible to a transfer: an association list from target
paths to byte contents. -/
abbrev FS := List (TargetPath × List Nat)

def fsLookup : FS → TargetPath → Option (List Nat)
  | [], _ => none
  | (q, c) :: rest, p => if q = p then some c else fsLookup rest p

/-- Writing a file (Python `open(target, "wb")` plus the write loop):
the new binding shadows any previous content of the same path. -/
def fsInsert (fs : FS) (p : TargetPath) (c : List Nat) : FS := (p, c) :: fs

/-- Deleting a file (Python `target.unlink()`). -/
def fsErase : FS → TargetPath → FS
  | [], _ => []
  | e :: rest, p => if e.1 = p then fsErase rest p else e :: fsErase rest p

/-- An outgoing HTTP request, modelled from `urllib.request.Request`:
ordinary headers propagate across redirects, unredirected headers do
not. -/
structure Request where
  url : String
  headers : List (String × String)
  unredirectedHeaders : List (String × String)
deriving DecidableEq

/-- The request construction at the top of `download_file`: when the
URL's hostname is present and has a token in the credential table (exact
hostname lookup), attach `Authorization: Bearer token` via
`add_unredirected_header`. -/
def buildRequest (tokens : List (String × String)) (url : String) : Request :=
  let auth : List (String × String) :=
    match parseHostname url with
    | some h =>
      match alookup tokens h with
      | some t => [("Authorization", "Bearer " ++ t)]
      | none => []
    | none => []
  ⟨url, [], auth⟩

/-- Modelled from `urllib.request`'s redirect handler: the request issued
after a redirect carries the original propagating headers but never the
unredirected ones. -/
def redirectRequest (req : Request) (newUrl : String) : Request :=
  ⟨newUrl, req.headers, []⟩

/-- All headers an HTTP request carries on the wire. -/
def allHeaders (req : Request) : List (String × String) :=
  req.headers ++ req.unredirectedHeaders

/-- Modelled from the `zipfile` library: a decoder saying whether a byte
string is a valid zip archive, and if so which named entries it holds. -/
structure ZipCodec where
  isZip : List Nat → Bool
  entries : List Nat → List (String × List Nat)

/-- Console output of a transfer, one constructor per `print` call in
`download_file`. -/
inductive LogEvent where
  | skip (name : String) (target : TargetPath)
  | progress (name : String) (downloaded : Nat) (total : Option Nat)
  | doneLine (name : String) (target : TargetPath)
  | unzipStart (name : String) (target : TargetPath)
  | warnNotZip (name : String) (target : TargetPath)
  | unzipDone (name : String) (target : TargetPath)
deriving DecidableEq

def CHUNK_SIZE : Nat := 1024 * 64

/-- `response.read(CHUNK_SIZE)` repeated until empty: the body split into
chunks of at most `CHUNK_SIZE` bytes.  Structural fuel (one unit per
chunk) keeps the definition kernel-reducible. -/
def readChunksFuel : Nat → List Nat → List (List Nat)
  | 0, _ => []
  | fuel + 1, l =>
    if l = [] then []
    else l.take CHUNK_SIZE :: readChunksFuel fuel (l.drop CHUNK_SIZE)

def readChunks (l : List Nat) : List (List Nat) := readChunksFuel l.length l

/-- The streaming loop of `download_file`: write each chunk to the open
file, add its length to the running byte count, and emit one progress
line per chunk.  Returns the final file contents and the progress
events. -/
def writeLoop (name : String) (total : Option Nat) :
    List (List Nat) → List Nat → Nat → List Nat × List LogEvent
  | [], file, _ => (file, [])
  | c :: cs, file, downloaded =>
    let d := downloaded + c.length
    let r := writeLoop name total cs (file ++ c) d
    (r.1, LogEvent.progress name d total :: r.2)

/-- Outcome of one `download_file` call: the filesystem afterwards, the
returned path, the console events in order, and the request that was
sent. -/
structure DlResult where
  fs : FS
  ret : TargetPath
  events : List LogEvent
  request : Request
deriving DecidableEq

/-- `zip_ref.extractall(subdirectory)`: write every archive entry into
the destination directory, in order, later entries shadowing earlier
ones. -/
def extractAll (fs : FS) (dir : String) (entries : List (String × List Nat)) : FS :=
  entries.foldl (fun acc e => fsInsert acc ⟨dir, e.1⟩ e.2) fs

/-- `download_file(name, url, subdirectory, force, unzip)` from
`util/model.py`.  `tokens` is the on-disk credential table at the moment
of the call, because the function itself begins with
`tokens = load_tokens()`; `resp` is the server's response to the request;
network and filesystem faults are outside this success-path model.
Pipeline: build the request (with bearer token when the hostname has
one), derive the target filename from the response, skip if the target
exists and `force` is not set, otherwise stream the body in chunks to the
target; when `unzip` is requested, a file that is not a valid archive is
only warned about and kept, while a valid archive is fully extracted into
the destination directory, after which the archive itself is deleted. -/
def download_file (codec : ZipCodec) (tokens : List (String × String))
    (resp : Response) (fs : FS) (name url subdirectory : String)
    (force unzip : Bool) : DlResult :=
  let req := buildRequest tokens url
  let filename := get_filename_from_response resp url
  let target : TargetPath := ⟨subdirectory, filename⟩
  if (fsLookup fs target).isSome && !force then
    ⟨fs, target, [LogEvent.skip name target], req⟩
  else
    let total : Option Nat :=
      match resp.contentLength with
      | some n => if n == 0 then none else some n
      | none => none
    let wl := writeLoop name total (readChunks resp.body) [] 0
    let fs1 := fsInsert fs target wl.1
    let evs1 := wl.2 ++ [LogEvent.doneLine name target]
    if unzip then
      if codec.isZip wl.1 then
        let fs2 := extractAll fs1 subdirectory (codec.entries wl.1)
        let fs3 := fsErase fs2 target
        ⟨fs3, target,
          evs1 ++ [LogEvent.unzipStart name target, LogEvent.unzipDone name target], req⟩
      else
        ⟨fs1, target, evs1 ++ [LogEvent.warnNotZip name target], req⟩
    else
      ⟨fs1, target, evs1, req⟩

/-! ## Streaming writes the whole body -/

theorem readChunksFuel_join (fuel : Nat) (l : List Nat) (h : l.length ≤ fuel) :
    (readChunksFuel fuel l).flatten = l := by
  induction fuel generalizing l with
  | zero =>
    rw [readChunksFuel]
    have : l = [] := List.length_eq_zero.mp (Nat.le_zero.mp h)
    simp [this]
  | succ fuel ih =>
    rw [readChunksFuel]
    by_cases hl : l = []
    · simp [hl]
    · rw [if_neg hl, List.flatten_cons, ih (l.drop CHUNK_SIZE) ?_, List.take_append_drop]
      have hpos : 0 < l.length := List.length_pos.mpr hl
      rw [List.length_drop]
      have : 0 < CHUNK_SIZE := by decide
      omega

theorem readChunks_join (l : List Nat) : (readChunks l).flatten = l :=
  readChunksFuel_join l.length l (Nat.le_refl _)

theorem writeLoop_fst (name : String) (total : Option Nat) (cs : List (List Nat))
    (file : List Nat) (d : Nat) :
    (writeLoop name total cs file d).1 = file ++ cs.flatten := by
  induction cs generalizing file d with
  | nil => simp [writeLoop]
  | cons c cs ih => simp [writeLoop, ih, List.append_assoc]

/-- The streamed file contents are exactly the response body. -/
theorem writeLoop_body (name : String) (total : Option Nat) (body : List Nat) :
    (writeLoop name total (readChunks body) [] 0).1 = body := by
  rw [writeLoop_fst, readChunks_join, List.nil_append]

/-- Every event the streaming loop emits is a progress line. -/
theorem writeLoop_events_progress (name : String) (total : Option Nat)
    (cs : List (List Nat)) (file : List Nat) (d : Nat) :
    ∀ e ∈ (writeLoop name total cs file d).2,
      ∃ dd, e = LogEvent.progress name dd total := by
  induction cs generalizing file d with
  | nil => simp [writeLoop]
  | cons c cs ih =>
    intro e he
    rw [writeLoop] at he
    rcases List.mem_cons.mp he with rfl | he
    · exact ⟨d + c.length, rfl⟩
    · exact ih (file ++ c) (d + c.length) e he

/-! ## Claim C4 -/

/-- C4: when the derived target file already exists, a transfer without
`force` changes no file (the filesystem is returned unchanged), logs
exactly a skip notice, and returns the pre-existing path — whatever the
`unzip` flag says, since the skip returns before the extraction step;
with `force` set the target ends up holding the downloaded body. -/
theorem c4_idempotent_skip (codec : ZipCodec) (tokens : List (String × String))
    (resp : Response) (fs : FS) (name url subdirectory : String) (unzip : Bool)
    (old : List Nat)
    (hexists : fsLookup fs ⟨subdirectory, get_filename_from_response resp url⟩ = some old) :
    (download_file codec tokens resp fs name url subdirectory false unzip).fs = fs ∧
      (download_file codec tokens resp fs name url subdirectory false unzip).ret =
        ⟨subdirectory, get_filename_from_response resp url⟩ ∧
      (download_file codec tokens resp fs name url subdirectory false unzip).events =
        [LogEvent.skip name ⟨subdirectory, get_filename_from_response resp url⟩] ∧
      fsLookup (download_file codec tokens resp fs name url subdirectory true false).fs
        ⟨subdirectory, get_filename_from_response resp url⟩ = some resp.body := by
  have hcond : (fsLookup fs ⟨subdirectory, get_filename_from_response resp url⟩).isSome
      = true := by rw [hexists]; rfl
  refine ⟨?_, ?_, ?_, ?_⟩
  · simp [download_file, hcond]
  · simp [download_file, hcond]
  · simp [download_file, hcond]
  · simp [download_file, fsLookup, fsInsert, writeLoop_body]

theorem c4_idempotent_skip_witness :
    (download_file ⟨fun _ => false, fun _ => []⟩ [] ⟨none, none, [1, 2, 3]⟩
        [(⟨"d", "f.bin"⟩, [9])] "m" ("http://h/f.bin") "d" false false).fs =
      [(⟨"d", "f.bin"⟩, [9])] ∧
    (download_file ⟨fun _ => false, fun _ => []⟩ [] ⟨none, none, [1, 2, 3]⟩
        [(⟨"d", "f.bin"⟩, [9])] "m" ("http://h/f.bin") "d" false false).ret =
      ⟨"d", get_filename_from_response ⟨none, none, [1, 2, 3]⟩ ("http://h/f.bin")⟩ ∧
    (download_file ⟨fun _ => false, fun _ => []⟩ [] ⟨none, none, [1, 2, 3]⟩
        [(⟨"d", "f.bin"⟩, [9])] "m" ("http://h/f.bin") "d" false false).events =
      [LogEvent.skip "m"
        ⟨"d", get_filename_from_response ⟨none, none, [1, 2, 3]⟩ ("http://h/f.bin")⟩] ∧
    fsLookup (download_file ⟨fun _ => false, fun _ => []⟩ [] ⟨none, none, [1, 2, 3]⟩
        [(⟨"d", "f.bin"⟩, [9])] "m" ("http://h/f.bin") "d" true false).fs
      ⟨"d", get_filename_from_response ⟨none, none, [1, 2, 3]⟩ ("http://h/f.bin")⟩ =
      some [1, 2, 3] := by
  have h := c4_idempotent_skip ⟨fun _ => false, fun _ => []⟩ []
    ⟨none, none, [1, 2, 3]⟩ [(⟨"d", "f.bin"⟩, [9])] "m" ("http://h/f.bin") "d" false
    [9] (by decide)
  exact ⟨by rw [h.1], h.2.1, h.2.2.1, h.2.2.2⟩

/-! ## Claim C5 -/

/-- The filename-derivation precedence exactly as the specification words
it: a `filename=` parameter found inside the `Content-Disposition` header
(parts split on semicolons and stripped, the parameter name matched
case-insensitively, the value stripped of surrounding quotes) takes
precedence; otherwise the last path segment of the URL; otherwise the
fixed default name. -/
def cdFilenameParamSpec (cd : String) : Option String :=
  (((splitSemi cd.data).map trimChars).find?
      (fun p => startsWithL (lowerChars p) "filename=".data)).map
    (fun p => (stripQuotesChars (afterFirstEq p)).asString)

/-- Specification-side restatement of the whole precedence. -/
def filenameSpec (resp : Response) (url : String) : String :=
  match resp.contentDisposition with
  | some cd =>
    if cd = "" then urlFallbackName url
    else
      match cdFilenameParamSpec cd with
      | some f => f
      | none => urlFallbackName url
  | none => urlFallbackName url

theorem cdFilenameLoop_eq_find (parts : List (List Char)) :
    cdFilenameLoop parts =
      ((parts.map trimChars).find?
          (fun p => startsWithL (lowerChars p) "filename=".data)).map
        (fun p => stripQuotesChars (afterFirstEq p)) := by
  induction parts with
  | nil => rfl
  | cons part rest ih =>
    by_cases hp : startsWithL (lowerChars (trimChars part)) "filename=".data = true
    · simp [cdFilenameLoop, hp]
    · simp [cdFilenameLoop, hp, ih]

/-- C5: the implemented filename derivation agrees everywhere with the
precedence the specification states; in particular a response carrying
`Content-Disposition: attachment; filename="weights.bin"` yields
`weights.bin` for every URL, a response without that header takes the
last URL path segment, and with neither available the fixed default
`downloaded.file` is used. -/
theorem c5_filename_precedence :
    (∀ resp url, get_filename_from_response resp url = filenameSpec resp url) ∧
      (∀ url, get_filename_from_response
          ⟨some ("attachment; filename=\"weights.bin\""), none, []⟩ url
        = "weights.bin") ∧
      (∀ cl body, get_filename_from_response (⟨none, cl, body⟩ : Response)
          ("http://host/dir/weights.bin") = "weights.bin") ∧
      (∀ cl body, get_filename_from_response (⟨none, cl, body⟩ : Response)
          ("http://host/dir/") = "downloaded.file") := by
  refine ⟨fun resp url => ?_, fun url => rfl, fun cl body => rfl, fun cl body => rfl⟩
  cases hcd : resp.contentDisposition with
  | none => simp [get_filename_from_response, filenameSpec, hcd]
  | some cd =>
    by_cases hne : cd = ""
    · simp [get_filename_from_response, filenameSpec, hcd, hne]
    · simp only [get_filename_from_response, filenameSpec, hcd, if_neg hne,
        cdFilenameLoop_eq_find, cdFilenameParamSpec]
      cases hfind : ((splitSemi cd.data).map trimChars).find?
          (fun p => startsWithL (lowerChars p) "filename=".data) with
      | none => rfl
      | some p => rfl

/-! ## Filesystem lemmas for the extraction step -/

theorem fsLookup_fsInsert_self (fs : FS) (p : TargetPath) (c : List Nat) :
    fsLookup (fsInsert fs p c) p = some c := by
  rw [fsInsert, fsLookup, if_pos rfl]

theorem fsLookup_fsInsert_ne (fs : FS) (p q : TargetPath) (c : List Nat)
    (h : p ≠ q) : fsLookup (fsInsert fs p c) q = fsLookup fs q := by
  rw [fsInsert, fsLookup, if_neg h]

theorem fsLookup_fsErase_self (fs : FS) (p : TargetPath) :
    fsLookup (fsErase fs p) p = none := by
  induction fs with
  | nil => rfl
  | cons e rest ih =>
    rw [fsErase]
    by_cases he : e.1 = p
    · rw [if_pos he]
      exact ih
    · rw [if_neg he]
      cases e with
      | mk q c => rw [fsLookup, if_neg he, ih]

theorem fsLookup_fsErase_ne (fs : FS) (p q : TargetPath) (h : q ≠ p) :
    fsLookup (fsErase fs p) q = fsLookup fs q := by
  induction fs with
  | nil => rfl
  | cons e rest ih =>
    rw [fsErase]
    cases e with
    | mk r c =>
      by_cases he : (r, c).1 = p
      · rw [if_pos he, ih, fsLookup, if_neg ?_]
        intro hrq
        exact h (hrq ▸ he)
      · rw [if_neg he, fsLookup, fsLookup]
        by_cases hrq : r = q
        · rw [if_pos hrq, if_pos hrq]
        · rw [if_neg hrq, if_neg hrq, ih]

theorem extractAll_cons (fs : FS) (dir : String) (e : String × List Nat)
    (rest : List (String × List Nat)) :
    extractAll fs dir (e :: rest) = extractAll (fsInsert fs ⟨dir, e.1⟩ e.2) dir rest := by
  rfl

theorem fsLookup_extractAll_of_not_mem (fs : FS) (dir : String)
    (entries : List (String × List Nat)) (p : TargetPath)
    (h : ∀ e ∈ entries, (⟨dir, e.1⟩ : TargetPath) ≠ p) :
    fsLookup (extractAll fs dir entries) p = fsLookup fs p := by
  induction entries generalizing fs with
  | nil => rfl
  | cons e rest ih =>
    rw [extractAll_cons, ih _ (fun x hx => h x (List.mem_cons_of_mem e hx)),
      fsLookup_fsInsert_ne _ _ _ _ (h e (List.mem_cons_self e rest))]

theorem fsLookup_extractAll_of_mem (fs : FS) (dir : String)
    (entries : List (String × List Nat))
    (hnodup : (entries.map Prod.fst).Nodup) (e : String × List Nat)
    (he : e ∈ entries) :
    fsLookup (extractAll fs dir entries) ⟨dir, e.1⟩ = some e.2 := by
  induction entries generalizing fs with
  | nil => exact absurd he (List.not_mem_nil e)
  | cons e0 rest ih =>
    rw [List.map_cons, List.nodup_cons] at hnodup
    rcases List.mem_cons.mp he with rfl | he2
    · rw [extractAll_cons,
        fsLookup_extractAll_of_not_mem _ _ _ _ (fun x hx hcontra => ?_),
        fsLookup_fsInsert_self]
      have : x.1 = e.1 := congrArg TargetPath.file hcontra
      exact hnodup.1 (this ▸ List.mem_map_of_mem Prod.fst hx)
    · rw [extractAll_cons]
      exact ih _ hnodup.2 he2

/-- The streaming loop never emits an extraction-start line. -/
theorem unzipStart_not_mem_writeLoop (nm : String) (total : Option Nat)
    (cs : List (List Nat)) (file : List Nat) (d : Nat) (nm2 : String) (tp : TargetPath) :
    LogEvent.unzipStart nm2 tp ∉ (writeLoop nm total cs file d).2 := by
  intro hmem
  obtain ⟨dd, hdd⟩ := writeLoop_events_progress nm total cs file d _ hmem
  exact LogEvent.noConfusion hdd

/-! ## Claim C6 -/

/-- C6: when extraction is requested but the downloaded bytes are not a
valid archive, the transfer adds exactly the downloaded file to the
filesystem and touches nothing else (no entry extracted, nothing
deleted), emits a warning, still returns the path of the downloaded file,
and reports no extraction step. -/
theorem c6_invalid_archive (codec : ZipCodec) (tokens : List (String × String))
    (resp : Response) (fs : FS) (name url subdirectory : String) (force : Bool)
    (hzip : codec.isZip resp.body = false)
    (hnoskip : fsLookup fs ⟨subdirectory, get_filename_from_response resp url⟩ = none ∨
      force = true) :
    (download_file codec tokens resp fs name url subdirectory force true).fs =
      fsInsert fs ⟨subdirectory, get_filename_from_response resp url⟩ resp.body ∧
      (download_file codec tokens resp fs name url subdirectory force true).ret =
        ⟨subdirectory, get_filename_from_response resp url⟩ ∧
      LogEvent.warnNotZip name ⟨subdirectory, get_filename_from_response resp url⟩ ∈
        (download_file codec tokens resp fs name url subdirectory force true).events ∧
      LogEvent.unzipStart name ⟨subdirectory, get_filename_from_response resp url⟩ ∉
        (download_file codec tokens resp fs name url subdirectory force true).events := by
  have hcond : ((fsLookup fs ⟨subdirectory, get_filename_from_response resp url⟩).isSome
      && !force) = false := by
    rcases hnoskip with h | h <;> simp [h]
  refine ⟨?_, ?_, ?_, ?_⟩
  · simp [download_file, hcond, writeLoop_body, hzip]
  · simp [download_file, hcond, writeLoop_body, hzip]
  · simp [download_file, hcond, writeLoop_body, hzip]
  · simp [download_file, hcond, hzip, writeLoop_body, unzipStart_not_mem_writeLoop]

theorem c6_invalid_archive_witness :
    (download_file ⟨fun _ => false, fun _ => []⟩ [] ⟨none, none, [7]⟩ []
        "m" ("http://h/f.bin") "d" false true).fs =
      fsInsert [] ⟨"d", get_filename_from_response ⟨none, none, [7]⟩ ("http://h/f.bin")⟩
        [7] ∧
      (download_file ⟨fun _ => false, fun _ => []⟩ [] ⟨none, none, [7]⟩ []
          "m" ("http://h/f.bin") "d" false true).ret =
        ⟨"d", get_filename_from_response ⟨none, none, [7]⟩ ("http://h/f.bin")⟩ ∧
      LogEvent.warnNotZip "m"
          ⟨"d", get_filename_from_response ⟨none, none, [7]⟩ ("http://h/f.bin")⟩ ∈
        (download_file ⟨fun _ => false, fun _ => []⟩ [] ⟨none, none, [7]⟩ []
          "m" ("http://h/f.bin") "d" false true).events ∧
      LogEvent.unzipStart "m"
          ⟨"d", get_filename_from_response ⟨none, none, [7]⟩ ("http://h/f.bin")⟩ ∉
        (download_file ⟨fun _ => false, fun _ => []⟩ [] ⟨none, none, [7]⟩ []
          "m" ("http://h/f.bin") "d" false true).events :=
  c6_invalid_archive ⟨fun _ => false, fun _ => []⟩ [] ⟨none, none, [7]⟩ []
    "m" ("http://h/f.bin") "d" false (by decide) (Or.inl (by decide))

/-! ## Claim C7 -/

/-- C7: when extraction is requested and the downloaded bytes are a valid
archive, every archive entry ends up extracted into the destination
directory with its own contents, the original archive file is deleted,
the extraction completion notice is emitted, and the archive path is
returned.  The hypotheses rule out colliding entry names and an entry
named like the archive itself, where shadowing or the deletion would
overwrite data. -/
theorem c7_valid_archive (codec : ZipCodec) (tokens : List (String × String))
    (resp : Response) (fs : FS) (name url subdirectory : String) (force : Bool)
    (hzip : codec.isZip resp.body = true)
    (hnoskip : fsLookup fs ⟨subdirectory, get_filename_from_response resp url⟩ = none ∨
      force = true)
    (hnodup : ((codec.entries resp.body).map Prod.fst).Nodup)
    (hname : get_filename_from_response resp url ∉ (codec.entries resp.body).map Prod.fst) :
    (∀ e ∈ codec.entries resp.body,
        fsLookup (download_file codec tokens resp fs name url subdirectory force true).fs
          ⟨subdirectory, e.1⟩ = some e.2) ∧
      fsLookup (download_file codec tokens resp fs name url subdirectory force true).fs
        ⟨subdirectory, get_filename_from_response resp url⟩ = none ∧
      (download_file codec tokens resp fs name url subdirectory force true).ret =
        ⟨subdirectory, get_filename_from_response resp url⟩ ∧
      LogEvent.unzipDone name ⟨subdirectory, get_filename_from_response resp url⟩ ∈
        (download_file codec tokens resp fs name url subdirectory force true).events := by
  have hcond : ((fsLookup fs ⟨subdirectory, get_filename_from_response resp url⟩).isSome
      && !force) = false := by
    rcases hnoskip with h | h <;> simp [h]
  refine ⟨fun e he => ?_, ?_, ?_, ?_⟩
  · simp only [download_file, hcond, Bool.false_eq_true, if_false, writeLoop_body,
      hzip, if_true]
    rw [fsLookup_fsErase_ne, fsLookup_extractAll_of_mem _ _ _ hnodup e he]
    intro hcontra
    have : e.1 = get_filename_from_response resp url := congrArg TargetPath.file hcontra
    exact hname (this ▸ List.mem_map_of_mem Prod.fst he)
  · simp only [download_file, hcond, Bool.false_eq_true, if_false, writeLoop_body,
      hzip, if_true]
    exact fsLookup_fsErase_self _ _
  · simp [download_file, hcond, writeLoop_body, hzip]
  · simp [download_file, hcond, writeLoop_body, hzip]

theorem c7_valid_archive_witness :
    (∀ e ∈ ([("e1", [5])] : List (String × List Nat)),
        fsLookup (download_file ⟨fun _ => true, fun _ => [("e1", [5])]⟩ []
            ⟨none, none, [7]⟩ [] "m" ("http://h/f.bin") "d" false true).fs
          ⟨"d", e.1⟩ = some e.2) ∧
      fsLookup (download_file ⟨fun _ => true, fun _ => [("e1", [5])]⟩ []
          ⟨none, none, [7]⟩ [] "m" ("http://h/f.bin") "d" false true).fs
        ⟨"d", get_filename_from_response ⟨none, none, [7]⟩ ("http://h/f.bin")⟩ = none ∧
      (download_file ⟨fun _ => true, fun _ => [("e1", [5])]⟩ []
          ⟨none, none, [7]⟩ [] "m" ("http://h/f.bin") "d" false true).ret =
        ⟨"d", get_filename_from_response ⟨none, none, [7]⟩ ("http://h/f.bin")⟩ ∧
      LogEvent.unzipDone "m"
          ⟨"d", get_filename_from_response ⟨none, none, [7]⟩ ("http://h/f.bin")⟩ ∈
        (download_file ⟨fun _ => true, fun _ => [("e1", [5])]⟩ []
          ⟨none, none, [7]⟩ [] "m" ("http://h/f.bin") "d" false true).events :=
  c7_valid_archive ⟨fun _ => true, fun _ => [("e1", [5])]⟩ [] ⟨none, none, [7]⟩ []
    "m" ("http://h/f.bin") "d" false (by decide) (Or.inl (by decide)) (by decide)
    (by decide)

/-! ## Claim C8 -/

/-- C8: the request a transfer sends carries an
`Authorization: Bearer token` header exactly when the credential table
holds a token for the URL's hostname under exact-match lookup; the header
sits among the non-propagating (unredirected) headers, the request has no
propagating headers at all, and the request issued after a redirect —
in particular to a different host — carries no headers, hence no
authorization. -/
theorem c8_auth_header (codec : ZipCodec) (tokens : List (String × String))
    (resp : Response) (fs : FS) (name url subdirectory : String) (force unzip : Bool) :
    (download_file codec tokens resp fs name url subdirectory force unzip).request =
      buildRequest tokens url ∧
      (∀ v, ("Authorization", v) ∈ (buildRequest tokens url).unredirectedHeaders ↔
        ∃ h t, parseHostname url = some h ∧ alookup tokens h = some t ∧
          v = "Bearer " ++ t) ∧
      (buildRequest tokens url).headers = [] ∧
      (∀ newUrl, allHeaders (redirectRequest (buildRequest tokens url) newUrl) = []) := by
  refine ⟨?_, fun v => ?_, rfl, fun newUrl => rfl⟩
  · simp only [download_file]
    repeat' split
    all_goals rfl
  · rw [buildRequest]
    cases hh : parseHostname url with
    | none => simp [hh]
    | some h =>
      cases ht : alookup tokens h with
      | none => simp [hh, ht]
      | some t => simp [hh, ht]

/-! ## The download scheduler (`cmd_dl`) -/

/-- One task handed to the worker pool, as `cmd_dl` builds it from the
index: the tuple passed to `download_file`. -/
structure TaskSpec where
  name : String
  url : String
  subdirectory : String
  force : Bool
  unzip : Bool
deriving DecidableEq

/-- Whether a completed task raised an exception. -/
def isErr : Except String TargetPath → Bool
  | Except.error _ => true
  | Except.ok _ => false

/-- Modelled from the loop `for f in as_completed(futures): f.result()` in
`cmd_dl`: the argument lists the tasks paired with their outcomes in
completion order, and the loop raises the error of the first failed task
it collects. -/
def firstFailure : List (TaskSpec × Except String TargetPath) → Option (TaskSpec × String)
  | [] => none
  | (t, Except.error e) :: _ => some (t, e)
  | (_, Except.ok _) :: rest => firstFailure rest

/-- Modelled from the executor's shutdown on leaving the `with` block:
every submitted task runs to completion before the block is exited, so
the writes of every successful task — in completion order — are on disk,
whether or not some other task failed. -/
def drainWrites : List (TaskSpec × Except String TargetPath) → List TargetPath
  | [] => []
  | (_, Except.ok p) :: rest => p :: drainWrites rest
  | (_, Except.error _) :: rest => drainWrites rest

/-- The observable outcome of the worker-pool section of `cmd_dl`
(`with ThreadPoolExecutor(...)`): the completed writes and the first
failure raised to the caller, both over the completion order. -/
def schedulerRun (completed : List (TaskSpec × Except String TargetPath)) :
    List TargetPath × Option (TaskSpec × String) :=
  (drainWrites completed, firstFailure completed)

theorem mem_drainWrites (completed : List (TaskSpec × Except String TargetPath))
    (c : TaskSpec × Except String TargetPath) (hc : c ∈ completed)
    (p : TargetPath) (hp : c.2 = Except.ok p) : p ∈ drainWrites completed := by
  induction completed with
  | nil => exact absurd hc (List.not_mem_nil c)
  | cons c0 rest ih =>
    obtain ⟨t0, r0⟩ := c0
    rcases List.mem_cons.mp hc with rfl | hc2
    · rcases hp with rfl
      exact List.mem_cons_self p (drainWrites rest)
    · cases r0 with
      | ok q => exact List.mem_cons_of_mem q (ih hc2)
      | error e => exact ih hc2

/-! ## Claim C3 -/

/-- C3: whatever order tasks complete in, if at least one task fails,
the scheduler raises the first failure observed in completion order —
with every task that completed before it having succeeded — yet the
write of every successful task, including those completing after the
failure, is on disk when the call returns. -/
theorem c3_drain_on_failure (completed : List (TaskSpec × Except String TargetPath))
    (hfail : ∃ c ∈ completed, isErr c.2 = true) :
    (∃ t e pre post, (schedulerRun completed).2 = some (t, e) ∧
        completed = pre ++ (t, Except.error e) :: post ∧
        ∀ c ∈ pre, isErr c.2 = false) ∧
      ∀ c ∈ completed, ∀ p, c.2 = Except.ok p → p ∈ (schedulerRun completed).1 := by
  refine ⟨?_, fun c hc p hp => mem_drainWrites completed c hc p hp⟩
  induction completed with
  | nil => simp at hfail
  | cons c0 rest ih =>
    obtain ⟨t0, r0⟩ := c0
    cases r0 with
    | error e =>
      exact ⟨t0, e, [], rest, rfl, rfl, by simp⟩
    | ok p =>
      have hrest : ∃ c ∈ rest, isErr c.2 = true := by
        obtain ⟨c, hc, herr⟩ := hfail
        rcases List.mem_cons.mp hc with rfl | hc2
        · exact absurd herr (by simp [isErr])
        · exact ⟨c, hc2, herr⟩
      obtain ⟨t, e, pre, post, h1, h2, h3⟩ := ih hrest
      refine ⟨t, e, (t0, Except.ok p) :: pre, post, h1, by rw [List.cons_append, h2],
        fun c hc => ?_⟩
      rcases List.mem_cons.mp hc with rfl | hc2
      · rfl
      · exact h3 c hc2

/-- The drain-on-failure example of the specification: three tasks in
completion order, the second of which failed. -/
def completedEx : List (TaskSpec × Except String TargetPath) :=
  [(⟨"t1", "u1", "d1", false, false⟩, Except.ok ⟨"d1", "f1"⟩),
    (⟨"t2", "u2", "d2", false, false⟩, Except.error ("boom")),
    (⟨"t3", "u3", "d3", false, false⟩, Except.ok ⟨"d3", "f3"⟩)]

theorem c3_drain_on_failure_witness :
    (∃ t e pre post, (schedulerRun completedEx).2 = some (t, e) ∧
        completedEx = pre ++ (t, Except.error e) :: post ∧
        ∀ c ∈ pre, isErr c.2 = false) ∧
      ∀ c ∈ completedEx, ∀ p, c.2 = Except.ok p → p ∈ (schedulerRun completedEx).1 :=
  c3_drain_on_failure completedEx (by decide)

/-! ## The `dl` command -/

/-- The arguments of the `dl` sub-command that `cmd_dl` consumes.
`none` stands for a flag the caller did not pass. -/
structure DlArgs where
  names : List String
  url : Option String
  subdirectory : Option String
  jobs : Option Nat
  force : Bool
  unzip : Bool
deriving DecidableEq

/-- Registering a model in the index (`index["models"][name] = entry`):
the new binding shadows any previous one under exact-name lookup. -/
def insertModel (models : List (String × ModelEntry)) (n : String) (e : ModelEntry) :
    List (String × ModelEntry) := (n, e) :: models

/-- The task-building loop of `cmd_dl`: look every expanded name up in
the models table, exiting on the first unknown name, and pair each found
entry with the shared `force` flag and its stored `unzip` flag. -/
def buildTasks (models : List (String × ModelEntry)) (force : Bool) :
    List String → Except String (List TaskSpec)
  | [] => Except.ok []
  | n :: rest =>
    match alookup models n with
    | none => Except.error ("Error: no entry for model " ++ n)
    | some m =>
      match buildTasks models force rest with
      | Except.error e => Except.error e
      | Except.ok ts => Except.ok (⟨n, m.url, m.subdirectory, force, m.unzip⟩ :: ts)

/-- What a `cmd_dl` run does to the world: exit with an error (index on
disk unchanged), run the ad-hoc single transfer after persisting the
updated index, or hand a task list and a job count to the worker pool. -/
inductive CmdDlResult where
  | exitErr (msg : String) (diskIndex : Index)
  | single (diskIndex : Index) (dl : Except String DlResult)
  | pool (diskIndex : Index) (tasks : List TaskSpec) (jobs : Nat)
deriving DecidableEq

/-- `cmd_dl(args)` from `util/model.py`.  The requested names are
deduplicated and expanded; with `-u`/`-d` given, exactly one name is
required, `-j` is rejected, the resource is registered into the index and
the index saved to disk, and only then the transfer itself runs —
`netResp` is the network's answer to it, `Except.error` standing for a
urlopen fault, so the persisted index is the same whether the download
succeeds or fails.  Without `-u`/`-d`, each name is looked up in the
models table and the tasks go to a pool of `jobs` workers, 4 by default
for several tasks, 1 for a single task. -/
def cmd_dl (index : Index) (args : DlArgs) (fuel : Nat) (codec : ZipCodec)
    (tokens : List (String × String)) (netResp : Except String Response)
    (fs : FS) : CmdDlResult :=
  let names0 := dedupSeen [] args.names
  match expand_names index names0 fuel with
  | Except.error (ExpandError.cycle n) =>
    CmdDlResult.exitErr ("Error: cyclic group reference detected at " ++ n) index
  | Except.error ExpandError.fuelExhausted =>
    CmdDlResult.exitErr ("expansion fuel exhausted") index
  | Except.ok names =>
    if args.url.isSome || args.subdirectory.isSome then
      match names with
      | [n] =>
        match args.url, args.subdirectory with
        | some u, some d =>
          if args.jobs.isSome then
            CmdDlResult.exitErr ("Error: -j cannot be used with -u / -d") index
          else
            let index2 : Index := ⟨insertModel index.models n ⟨u, d, args.unzip⟩, index.groups⟩
            CmdDlResult.single index2
              (match netResp with
               | Except.error e => Except.error e
               | Except.ok resp =>
                 Except.ok (download_file codec tokens resp fs n u d args.force args.unzip))
        | _, _ => CmdDlResult.exitErr ("Error: -u and -d must be used together") index
      | _ => CmdDlResult.exitErr ("Error: -u / -d require exactly one model name") index
    else
      match buildTasks index.models args.force names with
      | Except.error e => CmdDlResult.exitErr e index
      | Except.ok tasks =>
        CmdDlResult.pool index tasks (args.jobs.getD (if tasks.length > 1 then 4 else 1))

/-! ## Claim C9 -/

/-- C9: an ad-hoc single-resource fetch (exactly one expanded name,
explicit URL and destination, no explicit job count) registers the
resource into the index — the persisted index resolves the name to the
given URL, destination and extraction flag — and does so for every
possible network outcome `netResp`, i.e. regardless of whether the
subsequent download succeeds or fails. -/
theorem c9_single_registers_index (index : Index) (args : DlArgs) (fuel : Nat)
    (codec : ZipCodec) (tokens : List (String × String))
    (netResp : Except String Response) (fs : FS) (n u d : String)
    (hu : args.url = some u) (hd : args.subdirectory = some d)
    (hj : args.jobs = none)
    (hexp : expand_names index (dedupSeen [] args.names) fuel = Except.ok [n]) :
    cmd_dl index args fuel codec tokens netResp fs =
        CmdDlResult.single ⟨insertModel index.models n ⟨u, d, args.unzip⟩, index.groups⟩
          (match netResp with
           | Except.error e => Except.error e
           | Except.ok resp =>
             Except.ok (download_file codec tokens resp fs n u d args.force args.unzip)) ∧
      alookup (insertModel index.models n ⟨u, d, args.unzip⟩) n =
        some ⟨u, d, args.unzip⟩ := by
  constructor
  · rw [cmd_dl]
    simp [hexp, hu, hd, hj]
  · rw [insertModel, alookup, if_pos rfl]

theorem c9_single_registers_index_witness :
    cmd_dl ⟨[], []⟩ ⟨["m"], some ("http://h/f.bin"), some ("dd"), none, false, false⟩ 1
        ⟨fun _ => false, fun _ => []⟩ [] (Except.error ("network down")) [] =
      CmdDlResult.single
        ⟨insertModel [] "m" ⟨"http://h/f.bin", "dd", false⟩, []⟩
        (Except.error ("network down")) ∧
      alookup (insertModel [] "m" ⟨"http://h/f.bin", "dd", false⟩) "m" =
        some ⟨"http://h/f.bin", "dd", false⟩ :=
  c9_single_registers_index ⟨[], []⟩
    ⟨["m"], some ("http://h/f.bin"), some ("dd"), none, false, false⟩ 1
    ⟨fun _ => false, fun _ => []⟩ [] (Except.error ("network down")) []
    "m" ("http://h/f.bin") "dd" rfl rfl rfl (by decide)

/-! ## Claim C10 -/

/-- C10 counterexample: a transfer's behaviour does depend on the on-disk
token document at transfer time.  `download_file` begins with
`tokens = load_tokens()`, so its `tokens` argument is the on-disk table
at the moment the transfer starts; two runs identical in everything but
that table send different requests — with the token registered for
`example.com` the request carries the bearer header, without it it does
not.  This refutes the claim that the table is read once at process start
and never read by individual transfers. -/
theorem c10_tokens_counterexample :
    (download_file ⟨fun _ => false, fun _ => []⟩ [("example.com", "tok")]
        ⟨none, none, []⟩ [] "m" ("http://example.com/f.bin") "d" false false).request ≠
      (download_file ⟨fun _ => false, fun _ => []⟩ []
        ⟨none, none, []⟩ [] "m" ("http://example.com/f.bin") "d" false false).request := by
  decide

/-- C10 amended: each transfer loads the credential table from disk
itself when it starts — the request it sends is built from the token
document as it stands at transfer time (exact hostname lookup), not from
a table snapshotted at process start. -/
theorem c10_amended_tokens_read_at_transfer (codec : ZipCodec)
    (tokens : List (String × String)) (resp : Response) (fs : FS)
    (name url subdirectory : String) (force unzip : Bool) :
    (download_file codec tokens resp fs name url subdirectory force unzip).request =
      buildRequest tokens url := by
  simp only [download_file]
  repeat' split
  all_goals rfl

end ComfySetup
